import Mathlib

/-!
Verification of the SMS-parsing engine (`sms_parser/` package) against its
natural-language specification.  The Python sources are shallowly embedded:
strings become `List Char`, `Optional[str]` becomes `Option (List Char)`,
and the one statement that can raise an uncaught exception
(`lhs, rhs = parts` in `pad_currency_value`) is modelled with `Option`,
`none` standing for a raised `ValueError`.  Character-level operations
(`str.lower`, `str.strip`, `\s`, `\w`, `float`, `int`) are modelled on the
ASCII fragment, which covers every string the claims quantify over.
-/

-- ## Character predicates (ASCII models of the Python/`re` classes)

def isDigitCh (c : Char) : Bool := '0' ≤ c && c ≤ '9'

def isLowerCh (c : Char) : Bool := 'a' ≤ c && c ≤ 'z'

def isUpperCh (c : Char) : Bool := 'A' ≤ c && c ≤ 'Z'

-- regex `\w` (ASCII): letters, digits, underscore
def isWordCh (c : Char) : Bool := isLowerCh c || isUpperCh c || isDigitCh c || c = '_'

-- regex `[0-9a-zA-Z]`
def isAlnumCh (c : Char) : Bool := isLowerCh c || isUpperCh c || isDigitCh c

-- Python whitespace for `str.strip()` and regex `\s`
def isPyWs (c : Char) : Bool :=
  c = ' ' || c = '\t' || c = '\n' || c = '\r' || c = '\x0b' || c = '\x0c'

-- `str.lower()` on the ASCII fragment
def pyLower (c : Char) : Char :=
  if isUpperCh c then Char.ofNat (c.toNat + 32) else c

def lcStr (s : List Char) : List Char := s.map pyLower

-- case-insensitive prefix test (for regexes compiled with `re.IGNORECASE`)
def ciPref (pat s : List Char) : Bool := (lcStr pat).isPrefixOf (lcStr s)

-- ## Python string primitives

-- leftmost index of `pat` in the suffix starting at accumulated index `i`
def findSub (pat : List Char) : List Char → Nat → Option Nat
  | [], i => if pat.isPrefixOf ([] : List Char) then some i else none
  | c :: rest, i =>
    if pat.isPrefixOf (c :: rest) then some i else findSub pat rest (i + 1)

-- `str.find` (case-sensitive, leftmost; `none` models Python's `-1`)
def strFind (s pat : List Char) : Option Nat := findSub pat s 0

-- Python `in` for strings
def containsSub (pat s : List Char) : Bool := (strFind s pat).isSome

-- `str.replace(old, new)` for nonempty `old`: leftmost, non-overlapping,
-- replacements are not rescanned.  Fuel is the string length; each step
-- consumes at least one character, so the fuel never runs out.
def replaceAllGo (old new : List Char) : Nat → List Char → List Char
  | 0, s => s
  | _ + 1, [] => []
  | n + 1, c :: rest =>
    if old ≠ [] && old.isPrefixOf (c :: rest) then
      new ++ replaceAllGo old new n ((c :: rest).drop old.length)
    else
      c :: replaceAllGo old new n rest

def replaceAll (old new s : List Char) : List Char :=
  replaceAllGo old new s.length s

-- `re.sub` of a one-character class by a fixed replacement is a
-- character-wise rewrite
def subEach (f : Char → List Char) : List Char → List Char
  | [] => []
  | c :: rest => f c ++ subEach f rest

def subCharClass (p : Char → Bool) (new : List Char) (s : List Char) : List Char :=
  subEach (fun c => if p c then new else [c]) s

-- Generic `re.sub` scanner for the handful of fixed patterns used by the
-- normalizer.  `try` inspects the previous original character (for `\b`)
-- and the current suffix; on a hit it returns the number of consumed
-- characters (≥ 1) and the replacement.  Scanning resumes after the
-- consumed text, which is how `re.sub` proceeds.
def subEngine (tr : Option Char → List Char → Option (Nat × List Char)) :
    Nat → Option Char → List Char → List Char
  | 0, _, s => s
  | _ + 1, _, [] => []
  | n + 1, prev, c :: rest =>
    match tr prev (c :: rest) with
    | some (k, rep) =>
      if k = 0 then c :: subEngine tr n (some c) rest
      else rep ++ subEngine tr n (((c :: rest).drop (k - 1)).head?) ((c :: rest).drop k)
    | none => c :: subEngine tr n (some c) rest

def subRe (tr : Option Char → List Char → Option (Nat × List Char)) (s : List Char) :
    List Char :=
  subEngine tr s.length none s

-- `str.split(sep)` for a one-character separator, keeping empty fragments
def splitChGo (sep : Char) : List Char → List Char → List (List Char)
  | [], cur => [cur.reverse]
  | c :: rest, cur =>
    if c = sep then cur.reverse :: splitChGo sep rest [] else splitChGo sep rest (c :: cur)

def splitCh (sep : Char) (s : List Char) : List (List Char) := splitChGo sep s []

-- `message_str.split(" ")` followed by dropping empty fragments
def splitWords (s : List Char) : List (List Char) :=
  (splitCh ' ' s).filter (· ≠ [])

def joinSpaces (l : List (List Char)) : List Char := List.intercalate ([' ']) l

-- ## The normalizer `process_message` (utils.py lines 36-87)

-- word boundary `\b` against the previous original character
def boundOk : Option Char → Bool
  | none => true
  | some c => !isWordCh c

-- boundary after a candidate match
def boundAfter (s : List Char) : Bool :=
  match s.head? with
  | none => true
  | some c => !isWordCh c

-- `re.sub(r"\bac\b|\bacct\b|\baccount\b", "ac", s)`; alternatives are tried
-- in the written order at each position
def tryAcWord (prev : Option Char) (s : List Char) : Option (Nat × List Char) :=
  if !boundOk prev then none
  else if (("ac").data).isPrefixOf s && boundAfter (s.drop 2) then some (2, ("ac").data)
  else if (("acct").data).isPrefixOf s && boundAfter (s.drop 4) then some (4, ("ac").data)
  else if (("account").data).isPrefixOf s && boundAfter (s.drop 7) then some (7, ("ac").data)
  else none

-- `re.sub(r"rs(?=\w)", "rs. ", s)` : lookahead is not consumed
def tryRsW (_ : Option Char) (s : List Char) : Option (Nat × List Char) :=
  if (("rs").data).isPrefixOf s then
    match (s.drop 2).head? with
    | some w => if isWordCh w then some (2, ("rs. ").data) else none
    | none => none
  else none

-- `re.sub(r"inr(?=\w)", "rs. ", s)`
def tryInrW (_ : Option Char) (s : List Char) : Option (Nat × List Char) :=
  if (("inr").data).isPrefixOf s then
    match (s.drop 3).head? with
    | some w => if isWordCh w then some (3, ("rs. ").data) else none
    | none => none
  else none

-- `re.sub(r"rs.(?=\w)", "rs. ", s)` : the unescaped `.` consumes any
-- character except a newline
def tryRsAnyW (_ : Option Char) (s : List Char) : Option (Nat × List Char) :=
  if (("rs").data).isPrefixOf s then
    match s.drop 2 with
    | c :: rest2 =>
      if c ≠ '\n' then
        match rest2.head? with
        | some w => if isWordCh w then some (3, ("rs. ").data) else none
        | none => none
      else none
    | [] => none
  else none

-- combined-word rewrites (constants.py `COMBINED_WORDS`), `re.IGNORECASE`;
-- `\s` consumes exactly one whitespace character
def tryLitWsLit (w1 w2 rep : List Char) (_ : Option Char) (s : List Char) :
    Option (Nat × List Char) :=
  if ciPref w1 s then
    match s.drop w1.length with
    | c :: rest2 =>
      if isPyWs c && ciPref w2 rest2 then some (w1.length + 1 + w2.length, rep) else none
    | [] => none
  else none

-- `one\s*card`: greedy `\s*` must end exactly where `card` starts, because
-- giving back a whitespace character can never produce the letter `c`
def tryOneCard (_ : Option Char) (s : List Char) : Option (Nat × List Char) :=
  if ciPref (("one").data) s then
    let rest1 := s.drop 3
    let w := (rest1.takeWhile isPyWs).length
    if ciPref (("card").data) (rest1.drop w) then some (3 + w + 4, ("one_card").data)
    else none
  else none

def pmStep1 (s : List Char) : List Char := s.map pyLower

-- utils.py lines 40-53: strip `!`, rewrite `:` `/` `=` `{` `}` `\n` `\r`
def pmStep2 (s : List Char) : List Char :=
  replaceAll (("\r").data) ((" ").data)
    (replaceAll (("\n").data) ((" ").data)
      (subCharClass (fun c => c = '\x7b' || c = '\x7d') ((" ").data)
        (replaceAll (("=").data) ((" ").data)
          (replaceAll (("/").data) ([])
            (replaceAll ((":").data) ((" ").data)
              (replaceAll (("!").data) ([]) s))))))

-- utils.py lines 54-63
def pmStep3 (s : List Char) : List Char :=
  replaceAll (("no. ").data) ([])
    (replaceAll (("with ").data) ([])
      (replaceAll (("is ").data) ([])
        (subCharClass (fun c => c = 'x' || c = '*') ([])
          (replaceAll (("ending ").data) ([]) s))))

-- utils.py line 65: account-word folding
def pmStep4 (s : List Char) : List Char := subRe tryAcWord s

-- utils.py lines 66-77: currency-marker canonicalization
def pmStep5 (s : List Char) : List Char :=
  subRe tryRsAnyW
    (replaceAll (("rs. ").data) (("rs.").data)
      (replaceAll (("inr ").data) (("rs. ").data)
        (subRe tryInrW
          (replaceAll (("rs ").data) (("rs. ").data)
            (subRe tryRsW s)))))

-- utils.py lines 78-81
def pmStep6 (s : List Char) : List Char :=
  replaceAll (("credited").data) ((" credited ").data)
    (replaceAll (("debited").data) ((" debited ").data) s)

-- utils.py lines 83-85: COMBINED_WORDS, applied in table order
def pmStep7 (s : List Char) : List Char :=
  subRe tryOneCard
    (subRe (tryLitWsLit (("slice").data) (("card").data) (("slice_card").data))
      (subRe (tryLitWsLit (("niyo").data) (("card").data) (("niyo").data))
        (subRe (tryLitWsLit (("uni").data) (("card").data) (("uni_card").data))
          (subRe (tryLitWsLit (("amazon").data) (("pay").data) (("amazon_pay").data))
            (subRe (tryLitWsLit (("credit").data) (("card").data) (("c_card").data)) s)))))

def processMessage (message : List Char) : List (List Char) :=
  splitWords (pmStep7 (pmStep6 (pmStep5 (pmStep4 (pmStep3 (pmStep2 (pmStep1 message)))))))

-- `TMessageType = Union[str, List[str]]`
abbrev TMessage := Sum (List Char) (List (List Char))

def getProcessedMessage : TMessage → List (List Char)
  | Sum.inl s => processMessage s
  | Sum.inr l => l

-- ## Python numeric literal recognition (`float(...)` / `int(...)`)

-- `str.strip()` of whitespace at both ends
def stripPyWs (s : List Char) : List Char :=
  ((s.dropWhile isPyWs).reverse.dropWhile isPyWs).reverse

-- one optional leading sign
def dropSign : List Char → List Char
  | [] => []
  | c :: rest => if c = '+' || c = '-' then rest else c :: rest

-- after an initial digit, consume `(digit | _ digit)*` (PEP 515 underscores)
def digitsUTail : List Char → List Char
  | [] => []
  | c :: rest =>
    if isDigitCh c then digitsUTail rest
    else if c = '_' then
      match rest with
      | d :: rest2 => if isDigitCh d then digitsUTail rest2 else c :: rest
      | [] => c :: rest
    else c :: rest

-- fractional part after the dot: either empty or a digit run
def parseFrac (s : List Char) : List Char :=
  match s with
  | d :: r => if isDigitCh d then digitsUTail r else s
  | [] => s

-- `digits [. digits] | . digits`, at least one digit in total
def parseMantissa : List Char → Option (List Char)
  | [] => none
  | c :: rest =>
    if isDigitCh c then
      let r1 := digitsUTail rest
      match r1 with
      | '.' :: r2 => some (parseFrac r2)
      | _ => some r1
    else if c = '.' then
      match rest with
      | d :: r2 => if isDigitCh d then some (digitsUTail r2) else none
      | [] => none
    else none

-- optional exponent `([eE] sign? digits)`
def parseExp : List Char → Option (List Char)
  | [] => some []
  | c :: rest =>
    if c = 'e' || c = 'E' then
      match dropSign rest with
      | d :: r2 => if isDigitCh d then some (digitsUTail r2) else none
      | [] => none
    else some (c :: rest)

def ciEqStr (a b : List Char) : Bool := lcStr a == lcStr b

-- `float` body applied after stripping whitespace and one sign
def pyFloatableCore (t : List Char) : Bool :=
  if ciEqStr t (("inf").data) || ciEqStr t (("infinity").data) || ciEqStr t (("nan").data)
  then true
  else
    match parseMantissa t with
    | some r1 =>
      match parseExp r1 with
      | some r2 => r2.isEmpty
      | none => false
    | none => false

-- `utils.is_number`: whether Python `float(val)` succeeds (ASCII model)
def pyFloatable (s : List Char) : Bool :=
  pyFloatableCore (dropSign (stripPyWs s))

-- whether Python `int(val)` succeeds (ASCII model)
def pyIntable (s : List Char) : Bool :=
  match dropSign (stripPyWs s) with
  | d :: r => isDigitCh d && (digitsUTail r).isEmpty
  | [] => false

-- ## Small string utilities from utils.py

-- `trim_leading_and_trailing_chars` (utils.py lines 17-27)
def trimLeadingAndTrailingChars (s : List Char) : List Char :=
  match s with
  | [] => []
  | c :: _ =>
    let last := s.getLast?.getD c
    let final1 := if !pyFloatable [last] then s.dropLast else s
    if !pyFloatable [c] then final1.drop 1 else final1

-- `extract_bonded_account_no` (utils.py lines 30-33)
def extractBondedAccountNo (accountNo : List Char) : List Char :=
  let stripped := replaceAll (("ac").data) ([]) accountNo
  if pyFloatable stripped then stripped else []

-- `pad_currency_value` (utils.py lines 97-107); `none` models the
-- `ValueError` raised by the two-element unpacking on more than one dot
def padCurrencyValue (val : List Char) : Option (List Char) :=
  if val = [] then some []
  else
    match splitCh '.' val with
    | [p0] => some (p0 ++ ((".00").data))
    | [lhs, rhs] => some (lhs ++ '.' :: (rhs ++ List.replicate (2 - rhs.length) '0'))
    | _ => none

-- `re.split(r"[^0-9a-zA-Z]+", s)`: fragments between maximal separator
-- runs, keeping empty fragments at the edges
def splitNonAlnumGo : Nat → List Char → List (List Char)
  | 0, s => [s.takeWhile isAlnumCh]
  | n + 1, s =>
    let piece := s.takeWhile isAlnumCh
    let rest := s.dropWhile isAlnumCh
    match rest with
    | [] => [piece]
    | _ => piece :: splitNonAlnumGo n (rest.dropWhile (fun c => !isAlnumCh c))

def splitNonAlnum (s : List Char) : List (List Char) := splitNonAlnumGo s.length s

-- `get_next_words` (utils.py lines 110-122): `source.split(search_word, 2)`
-- keeps the text between the first and second occurrence
def getNextWords (source searchWord : List Char) (count : Nat) : List Char :=
  match strFind source searchWord with
  | none => []
  | some i =>
    let after1 := source.drop (i + searchWord.length)
    let nextGroup :=
      match strFind after1 searchWord with
      | some j => after1.take j
      | none => after1
    if nextGroup ≠ [] then
      joinSpaces ((splitNonAlnum (stripPyWs nextGroup)).take count)
    else []

-- ## Data model (models.py)

inductive IAccountType
  | CARD
  | WALLET
  | ACCOUNT
deriving DecidableEq, Repr

inductive IBalanceKeyWordsType
  | AVAILABLE
  | OUTSTANDING
deriving DecidableEq, Repr

structure IAccountInfo where
  type : Option IAccountType := none
  number : Option (List Char) := none
  name : Option (List Char) := none
deriving DecidableEq, Repr

structure IBalance where
  available : Option (List Char) := none
  outstanding : Option (List Char) := none
deriving DecidableEq, Repr

structure ITransaction where
  type : Option (List Char) := none
  amount : Option (List Char) := none
  referenceNo : Option (List Char) := none
  merchant : Option (List Char) := none
deriving DecidableEq, Repr

structure ITransactionInfo where
  account : IAccountInfo
  balance : Option IBalance := none
  transaction : ITransaction := {}
deriving DecidableEq, Repr

-- Python truthiness of an `Optional[str]`
def pyTruthy : Option (List Char) → Bool
  | none => false
  | some s => !s.isEmpty

-- ## Static tables (constants.py)

def AVAILABLE_BALANCE_KEYWORDS : List (List Char) :=
  [(("avbl bal").data), (("available balance").data), (("available limit").data),
   (("available credit limit").data), (("avbl. credit limit").data),
   (("limit available").data), (("a/c bal").data), (("ac bal").data),
   (("available bal").data), (("avl bal").data), (("updated balance").data),
   (("total balance").data), (("new balance").data), (("bal").data),
   (("avl lmt").data), (("available").data)]

def OUTSTANDING_BALANCE_KEYWORDS : List (List Char) := [(("outstanding").data)]

def WALLETS : List (List Char) :=
  [(("paytm").data), (("simpl").data), (("lazypay").data), (("amazon_pay").data)]

def UPI_KEYWORDS : List (List Char) :=
  [(("upi").data), (("ref no").data), (("upi ref").data), (("upi ref no").data)]

-- `(canonical token, account kind)` pairs of `COMBINED_WORDS`, table order
def COMBINED_WORDS : List (List Char × IAccountType) :=
  [((("c_card").data), .CARD), ((("amazon_pay").data), .WALLET),
   ((("uni_card").data), .CARD), ((("niyo").data), .ACCOUNT),
   ((("slice_card").data), .CARD), ((("one_card").data), .CARD)]

def cardCombinedWords : List (List Char) :=
  (COMBINED_WORDS.filter (fun wt => wt.2 = .CARD)).map (fun wt => wt.1)

-- ## Account extraction (account.py)

-- inner part of `get_card` once the card keyword was found at a non-final
-- index: the next token is taken as the number and validated with `int`
def cardFound (combinedName : List Char) : List (List Char) → IAccountInfo
  | next :: _ =>
    if pyIntable next then { type := some .CARD, number := some next }
    else
      { type := if combinedName ≠ [] then some IAccountType.CARD else none,
        number := none, name := some combinedName }
  | [] => {}

-- the scan of `get_card` (account.py lines 17-32): literal "card" is
-- checked before the CARD-type combined words at each index
def getCardGo : List (List Char) → IAccountInfo
  | [] => {}
  | w :: rest =>
    if w = (("card").data) then cardFound ([]) rest
    else if cardCombinedWords.contains w then cardFound w rest
    else getCardGo rest

def getCard (message : List (List Char)) : IAccountInfo := getCardGo message

-- the `ac` scan of `get_account` (account.py lines 64-83); `none` means the
-- loop ended with `account_index == -1`
def accountScanGo : List (List Char) → Option IAccountInfo
  | [] => none
  | w :: rest =>
    if w = (("ac").data) then
      match rest with
      | next :: _ =>
        let accountNo := trimLeadingAndTrailingChars next
        if pyIntable accountNo then
          some { type := some .ACCOUNT, number := some accountNo }
        else accountScanGo rest
      | [] => accountScanGo rest
    else if containsSub (("ac").data) w then
      let extracted := extractBondedAccountNo w
      if extracted ≠ [] then
        some { type := some .ACCOUNT, number := some extracted }
      else accountScanGo rest
    else accountScanGo rest

-- wallet detection (account.py lines 90-95)
def walletStep (pm : List (List Char)) (account : IAccountInfo) : IAccountInfo :=
  if account.type = none then
    match pm.find? (fun w => WALLETS.contains w) with
    | some w => { account with type := some .WALLET, name := some w }
    | none => account
  else account

-- special accounts from the combined-word table (account.py lines 98-103)
def specialStep (pm : List (List Char)) (account : IAccountInfo) : IAccountInfo :=
  if account.type = none then
    match COMBINED_WORDS.find? (fun wt => wt.2 = IAccountType.ACCOUNT && pm.contains wt.1) with
    | some wt => { account with type := some wt.2, name := some wt.1 }
    | none => account
  else account

-- keep the last four digits (account.py lines 107-108)
def truncateNumber (account : IAccountInfo) : IAccountInfo :=
  match account.number with
  | some n =>
    if n ≠ [] && decide (4 < n.length) then
      { account with number := some (n.drop (n.length - 4)) }
    else account
  | none => account

def getAccount (message : TMessage) : IAccountInfo :=
  let pm := getProcessedMessage message
  let account :=
    match accountScanGo pm with
    | some acc => acc
    | none => getCard pm
  truncateNumber (specialStep pm (walletStep pm account))

-- ## Balance extraction (balance.py)

-- the character scan of `extract_balance` (balance.py lines 16-31)
def extractGo : List Char → Bool → Nat → List Char
  | [], _, _ => []
  | c :: rest, sawNumber, invalidCharCount =>
    if isDigitCh c then c :: extractGo rest true invalidCharCount
    else if sawNumber then
      if c = '.' then
        if invalidCharCount = 1 then []
        else c :: extractGo rest sawNumber 1
      else if c ≠ ',' then []
      else extractGo rest sawNumber invalidCharCount
    else extractGo rest sawNumber invalidCharCount

def extractBalance (index : Nat) (message : List Char) : List Char :=
  extractGo (message.drop index) false 0

-- keyword loop of `get_balance` (balance.py lines 98-102): first keyword,
-- in table order, found anywhere in the string; result is the index just
-- past the keyword occurrence
def balanceKeywordEnd (kws : List (List Char)) (s : List Char) : Option Nat :=
  match kws with
  | [] => none
  | kw :: rest =>
    match strFind s kw with
    | some i => some (i + kw.length)
    | none => balanceKeywordEnd rest s

-- the `rs.` scan of `get_balance` (balance.py lines 105-114): first
-- occurrence of "rs." at or after `start`; returns the index of its 'r'
def rsIndexFrom (s : List Char) (start : Nat) : Option Nat :=
  (findSub (("rs.").data) (s.drop start) 0).map (· + start)

-- regex `([\d]+\.[\d]+|[\d]+)` anchored at this position: the greedy run
-- of digits, plus a fractional part when a digit follows the dot
def parseAmountAt (s : List Char) : Option (List Char) :=
  match s with
  | c :: _ =>
    if isDigitCh c then
      let d1 := s.takeWhile isDigitCh
      let r1 := s.dropWhile isDigitCh
      match r1 with
      | '.' :: r2 =>
        match r2 with
        | d :: _ => if isDigitCh d then some (d1 ++ '.' :: r2.takeWhile isDigitCh) else some d1
        | [] => some d1
      | _ => some d1
    else none
  | [] => none

def pyIsDigitStr (s : List Char) : Bool := !s.isEmpty && s.all isDigitCh

-- `balance.replace(".", "", 1)`
def removeFirstDot : List Char → List Char
  | [] => []
  | c :: rest => if c = '.' then rest else c :: removeFirstDot rest

-- one position of case 1 `keyword \s* amount`: keyword alternation in
-- table order, greedy whitespace (giving whitespace back can never reach a
-- digit, so only the full run matters)
def nsbCase1Try (kws : List (List Char)) (s : List Char) : Option (List Char × Nat) :=
  match kws with
  | [] => none
  | kw :: rest =>
    if ciPref kw s then
      let afterKw := s.drop kw.length
      let w := (afterKw.takeWhile isPyWs).length
      match parseAmountAt (afterKw.drop w) with
      | some amt => some (amt, kw.length + w + amt.length)
      | none => nsbCase1Try rest s
    else nsbCase1Try rest s

-- one position of case 2 `amount \s* keyword`: the only amount candidate a
-- backtracking engine can complete is the maximal one, since shorter digit
-- runs are followed by a digit and keywords start with letters
def nsbCase2Try (kws : List (List Char)) (s : List Char) : Option (List Char × Nat) :=
  match parseAmountAt s with
  | some amt =>
    let afterAmt := s.drop amt.length
    let w := (afterAmt.takeWhile isPyWs).length
    match kws.find? (fun kw => ciPref kw (afterAmt.drop w)) with
    | some kw => some (amt, amt.length + w + kw.length)
    | none => none
  | none => none

-- `findall` iteration of `find_non_standard_balance`: leftmost matches,
-- resuming after each full match; every captured amount passes the digit
-- test, the test is kept for fidelity
def nsbTry (case2 : Bool) (kws : List (List Char)) (s : List Char) :
    Option (List Char × Nat) :=
  if case2 then nsbCase2Try kws s else nsbCase1Try kws s

def nsbScan (case2 : Bool) (kws : List (List Char)) : Nat → List Char → Option (List Char)
  | 0, _ => none
  | n + 1, s =>
    match nsbTry case2 kws s with
    | some (amt, consumed) =>
      if pyIsDigitStr (removeFirstDot amt) then some amt
      else nsbScan case2 kws n (s.drop (max consumed 1))
    | none =>
      match s with
      | [] => none
      | _ :: rest => nsbScan case2 kws n rest

-- `find_non_standard_balance` (balance.py lines 36-78)
def findNonStandardBalance (kws : List (List Char)) (message : List Char) :
    Option (List Char) :=
  match nsbScan false kws message.length message with
  | some b => some b
  | none => nsbScan true kws message.length message

-- `get_balance` (balance.py lines 81-125); the outer `Option` models the
-- `ValueError` that `pad_currency_value` could raise
def getBalance (message : TMessage) (keywordType : IBalanceKeyWordsType) :
    Option (Option (List Char)) :=
  let pm := getProcessedMessage message
  let messageString := joinSpaces pm
  let kws :=
    match keywordType with
    | .AVAILABLE => AVAILABLE_BALANCE_KEYWORDS
    | .OUTSTANDING => OUTSTANDING_BALANCE_KEYWORDS
  let rsPos :=
    match balanceKeywordEnd kws messageString with
    | none => none
    | some idxAfterKw => rsIndexFrom messageString idxAfterKw
  match rsPos with
  | none =>
    match findNonStandardBalance kws messageString with
    | some b => (padCurrencyValue b).map some
    | none => some none
  | some p =>
    let balance := extractBalance (p + 2) messageString
    if balance ≠ [] then (padCurrencyValue balance).map some else some none

-- ## Transaction amount and type (engine.py)

def getTransactionAmount (message : TMessage) : Option (List Char) :=
  let pm := getProcessedMessage message
  match pm.findIdx? (· = (("rs.").data)) with
  | none => some []
  | some index =>
    match pm.drop (index + 1) with
    | money1 :: rest2 =>
      let money := replaceAll ((",").data) ([]) money1
      if pyFloatable money then padCurrencyValue money
      else
        match rest2 with
        | money2 :: _ =>
          let moneyB := if money2 ≠ [] then replaceAll ((",").data) ([]) money2 else []
          if pyFloatable moneyB then padCurrencyValue moneyB
          else some []
        | [] => some []
    | [] => some []

-- case-insensitive substring search (`re.search` of a literal with
-- `re.IGNORECASE`)
def ciContains (pat s : List Char) : Bool := containsSub (lcStr pat) (lcStr s)

def anySuffix (p : List Char → Bool) : List Char → Bool
  | [] => p []
  | c :: rest => p (c :: rest) || anySuffix p rest

-- `w1 \s w2` (plus = false) or `w1 \s+ w2` (plus = true) at this position
def gapMatchAt (w1 w2 : List Char) (plus : Bool) (s : List Char) : Bool :=
  ciPref w1 s &&
    (let after := s.drop w1.length
     if plus then
       let wsLen := (after.takeWhile isPyWs).length
       decide (1 ≤ wsLen) && ciPref w2 (after.drop wsLen)
     else
       match after with
       | c :: r => isPyWs c && ciPref w2 r
       | [] => false)

def gapSearch (w1 w2 : List Char) (plus : Bool) (s : List Char) : Bool :=
  anySuffix (gapMatchAt w1 w2 plus) s

-- `re.search` of the three classifier alternations (engine.py lines 56-64)
def debitSearch (s : List Char) : Bool :=
  ciContains (("debited").data) s || ciContains (("debit").data) s ||
  ciContains (("deducted").data) s

def miscSearch (s : List Char) : Bool :=
  ciContains (("payment").data) s || ciContains (("spent").data) s ||
  ciContains (("paid").data) s || gapSearch (("used").data) (("at").data) true s ||
  ciContains (("charged").data) s ||
  gapSearch (("transaction").data) (("on").data) false s ||
  gapSearch (("transaction").data) (("fee").data) false s ||
  ciContains (("tran").data) s || ciContains (("booked").data) s ||
  ciContains (("purchased").data) s || gapSearch (("sent").data) (("to").data) true s ||
  gapSearch (("purchase").data) (("of").data) true s ||
  gapSearch (("spent").data) (("on").data) true s

def creditSearch (s : List Char) : Bool :=
  ciContains (("credited").data) s || ciContains (("credit").data) s ||
  ciContains (("deposited").data) s || ciContains (("added").data) s ||
  ciContains (("received").data) s || ciContains (("refund").data) s ||
  ciContains (("repayment").data) s

-- `" ".join(message) if not isinstance(message, str) else message`
def tmsgStr : TMessage → List Char
  | Sum.inl s => s
  | Sum.inr l => joinSpaces l

-- `get_transaction_type` (engine.py lines 54-75)
def getTransactionType (message : TMessage) : Option (List Char) :=
  if debitSearch (tmsgStr message) then some (("debit").data)
  else if miscSearch (tmsgStr message) then some (("debit").data)
  else if creditSearch (tmsgStr message) then some (("credit").data)
  else none

-- ## Merchant / reference extraction (merchant.py)

def UPI_HANDLES : List (List Char) :=
  [(("@BARODAMPAY").data), (("@rbl").data), (("@idbi").data), (("@upi").data),
   (("@aubank").data), (("@axisbank").data), (("@bandhan").data), (("@dlb").data),
   (("@indus").data), (("@kbl").data), (("@federal").data), (("@sbi").data),
   (("@uco").data), (("@citi").data), (("@citigold").data), (("@dlb").data),
   (("@dbs").data), (("@freecharge").data), (("@okhdfcbank").data),
   (("@okaxis").data), (("@oksbi").data), (("@okicici").data), (("@yesg").data),
   (("@hsbc").data), (("@idbi").data), (("@icici").data), (("@indianbank").data),
   (("@allbank").data), (("@kotak").data), (("@ikwik").data),
   (("@unionbankofindia").data), (("@uboi").data), (("@unionbank").data),
   (("@paytm").data), (("@ybl").data), (("@axl").data), (("@ibl").data),
   (("@sib").data), (("@yespay").data)]

structure MerchantInfo where
  merchant : Option (List Char) := none
  referenceNo : Option (List Char) := none
deriving DecidableEq, Repr

-- VPA branch (merchant.py lines 19-25)
def vpaStep (pm : List (List Char)) : Option (List Char) :=
  match pm.findIdx? (· = (("vpa").data)) with
  | some idx =>
    if idx + 1 < pm.length then
      match (pm.drop (idx + 1)).head? with
      | some nextStr =>
        let cleaned :=
          replaceAll ((")").data) ((" ").data)
            (replaceAll (("(").data) ((" ").data) nextStr)
        some ((splitCh ' ' cleaned).headD [])
      | none => none
    else none
  | none => none

-- keyword loop (merchant.py lines 28-33): keywords tried in TABLE order,
-- first keyword whose leftmost occurrence has index > 0 wins
def upiKeywordMatch (s : List Char) : Option (List Char) :=
  UPI_KEYWORDS.find? (fun kw =>
    match strFind s kw with
    | some i => decide (0 < i)
    | none => false)

-- `re.split(r"[^0-9]", s)`: split at every single non-digit character
def splitAtNonDigitGo : List Char → List Char → List (List Char)
  | [], cur => [cur.reverse]
  | c :: rest, cur =>
    if !isDigitCh c then cur.reverse :: splitAtNonDigitGo rest []
    else splitAtNonDigitGo rest (c :: cur)

-- `max(parts, key=len)`: first element of maximal length
def firstLongest : List (List Char) → Option (List Char)
  | [] => none
  | x :: rest =>
    match firstLongest rest with
    | none => some x
    | some y => if x.length < y.length then some y else some x

def handleClassCh (c : Char) : Bool := isAlnumCh c || c = '_' || c = '-'

-- regex `[a-zA-Z0-9_-]+(@handle1|...)`: the class excludes `@`, so the
-- greedy run always ends exactly where a handle can start; the captured
-- group is the handle text as it appears in the message
def upiHandleAt (s : List Char) : Option (List Char) :=
  match s with
  | c :: _ =>
    if handleClassCh c then
      let afterRun := s.dropWhile handleClassCh
      match UPI_HANDLES.find? (fun h => ciPref h afterRun) with
      | some h => some (afterRun.take h.length)
      | none => none
    else none
  | [] => none

-- leftmost-match search driver shared by the regex fallbacks
def searchFirst (f : List Char → Option (List Char)) : List Char → Option (List Char)
  | [] => f []
  | c :: rest =>
    match f (c :: rest) with
    | some r => some r
    | none => searchFirst f rest

def upiHandleSearch (s : List Char) : Option (List Char) := searchFirst upiHandleAt s

-- `at\s+(.+?)\s+on\s+` anchored after "at" and a chosen whitespace run:
-- the lazy group grows one character at a time; the `\s+` before "on" can
-- only match the full whitespace run, since "on" starts with a letter
def atOnGrow : Nat → List Char → List Char → Option (List Char)
  | 0, _, _ => none
  | n + 1, groupRev, rest =>
    match rest with
    | [] => none
    | c :: rest2 =>
      if c = '\n' then none
      else
        let w2 := (rest2.takeWhile isPyWs).length
        if 1 ≤ w2 && ciPref (("on").data) (rest2.drop w2) &&
            1 ≤ ((((rest2.drop w2).drop 2)).takeWhile isPyWs).length then
          some (c :: groupRev).reverse
        else atOnGrow n (c :: groupRev) rest2

-- greedy `\s+` after "at": try the longest whitespace run first, giving
-- characters back one at a time
def atOnW (after : List Char) : Nat → Option (List Char)
  | 0 => none
  | w + 1 =>
    match atOnGrow (after.drop (w + 1)).length [] (after.drop (w + 1)) with
    | some g => some g
    | none => atOnW after w

def atOnAt (s : List Char) : Option (List Char) :=
  if ciPref (("at").data) s then
    let after := s.drop 2
    let maxW := (after.takeWhile isPyWs).length
    if maxW = 0 then none else atOnW after maxW
  else none

-- `at\s+(.+?)`: the lazy group is always a single character; when the
-- string ends inside the whitespace run the greedy `\s+` gives one back
def atSimpleW (after : List Char) : Nat → Option (List Char)
  | 0 => none
  | w + 1 =>
    match (after.drop (w + 1)).head? with
    | some c => if c ≠ '\n' then some [c] else atSimpleW after w
    | none => atSimpleW after w

def atSimpleAt (s : List Char) : Option (List Char) :=
  if ciPref (("at").data) s then
    let after := s.drop 2
    let maxW := (after.takeWhile isPyWs).length
    if maxW = 0 then none else atSimpleW after maxW
  else none

-- `on\s+(.+?)\s`: lazy group followed by a single whitespace character
def onGrow : Nat → List Char → List Char → Option (List Char)
  | 0, _, _ => none
  | n + 1, groupRev, rest =>
    match rest with
    | [] => none
    | c :: rest2 =>
      if c = '\n' then none
      else
        match rest2.head? with
        | some d =>
          if isPyWs d then some (c :: groupRev).reverse
          else onGrow n (c :: groupRev) rest2
        | none => none

def onW (after : List Char) : Nat → Option (List Char)
  | 0 => none
  | w + 1 =>
    match onGrow (after.drop (w + 1)).length [] (after.drop (w + 1)) with
    | some g => some g
    | none => onW after w

def onAt (s : List Char) : Option (List Char) :=
  if ciPref (("on").data) s then
    let after := s.drop 2
    let maxW := (after.takeWhile isPyWs).length
    if maxW = 0 then none else onW after maxW
  else none

-- `extract_merchant_info` (merchant.py lines 9-80)
def extractMerchantInfo (message : TMessage) : MerchantInfo :=
  let pm := getProcessedMessage message
  let messageString := joinSpaces pm
  let details0 : MerchantInfo := { merchant := vpaStep pm, referenceNo := none }
  let details1 :=
    match upiKeywordMatch messageString with
    | none => details0
    | some kw =>
      let nextWord := getNextWords messageString kw 1
      let d :=
        if pyFloatable nextWord then { details0 with referenceNo := some nextWord }
        else if pyTruthy details0.merchant then
          let parts := (splitAtNonDigitGo nextWord []).filter (· ≠ [])
          if parts ≠ [] then
            match firstLongest parts with
            | some longest =>
              if longest ≠ [] then { details0 with referenceNo := some longest }
              else details0
            | none => details0
          else details0
        else { details0 with merchant := some nextWord }
      if !pyTruthy d.merchant then
        match upiHandleSearch messageString with
        | some h => { d with merchant := some h }
        | none => d
      else d
  let details2 :=
    if !pyTruthy details1.merchant then
      match searchFirst atOnAt messageString with
      | some g => { details1 with merchant := some (stripPyWs g) }
      | none => details1
    else details1
  let details3 :=
    if !pyTruthy details2.merchant then
      match searchFirst atSimpleAt messageString with
      | some g => { details2 with merchant := some (stripPyWs g) }
      | none => details2
    else details2
  if !pyTruthy details3.merchant then
    match searchFirst onAt messageString with
    | some g => { details3 with merchant := some (stripPyWs g) }
    | none => details3
  else details3

-- ## The engine (engine.py `get_transaction_info`)

def getTransactionInfo (message : List Char) : Option ITransactionInfo :=
  if message = [] then
    some { account := {}, balance := none, transaction := {} }
  else
    let pm := processMessage message
    let account := getAccount (Sum.inr pm)
    (getBalance (Sum.inr pm) .AVAILABLE).bind fun availableBalance =>
    (getTransactionAmount (Sum.inr pm)).bind fun transactionAmount =>
    let cnt := ([availableBalance, some transactionAmount, account.number].countP pyTruthy)
    let transactionType :=
      if 2 ≤ cnt then getTransactionType (Sum.inr pm) else none
    (if account.type = some IAccountType.CARD then getBalance (Sum.inr pm) .OUTSTANDING
     else some none).bind fun outstanding =>
    let merchantInfo := extractMerchantInfo (Sum.inl message)
    some { account := account,
           balance := some { available := availableBalance, outstanding := outstanding },
           transaction := { type := transactionType, amount := some transactionAmount,
                            referenceNo := merchantInfo.referenceNo,
                            merchant := merchantInfo.merchant } }

-- ## Claim-side definitions and helper lemmas

-- Spec transcription of the balance scan (spec §4.3): after skipping to the
-- first digit, take the longest prefix of digits, commas and at most one
-- dot (a second dot or any other character ends the scan), then drop the
-- skipped commas
def claimTake : List Char → Nat → List Char
  | [], _ => []
  | c :: r, dots =>
    if isDigitCh c || c = ',' then c :: claimTake r dots
    else if c = '.' && dots = 0 then c :: claimTake r 1
    else []

def claimExtract (rest : List Char) : List Char :=
  (claimTake (rest.dropWhile (fun c => !isDigitCh c)) 0).filter (· ≠ ',')

theorem extractGo_seen (rest : List Char) :
    ∀ dots, dots ≤ 1 → extractGo rest true dots = (claimTake rest dots).filter (· ≠ ',') := by
  induction rest with
  | nil => intro dots _; simp [extractGo, claimTake]
  | cons c r ih =>
    intro dots hd
    by_cases hdig : isDigitCh c
    · have hc : ¬(c = ',') := by
        intro h; subst h; simp [isDigitCh] at hdig
      simp [extractGo, claimTake, hdig, hc, ih dots hd]
    · by_cases hcomma : c = ','
      · subst hcomma
        simp [extractGo, claimTake, hdig, ih dots hd]
      · by_cases hdot : c = '.'
        · subst hdot
          by_cases h1 : dots = 1
          · subst h1; simp [extractGo, claimTake, hdig]
          · have h0 : dots = 0 := by omega
            subst h0
            simp [extractGo, claimTake, hdig, ih 1 (by omega)]
        · simp [extractGo, claimTake, hdig, hcomma, hdot]

theorem extractGo_eq_claimExtract (rest : List Char) :
    extractGo rest false 0 = claimExtract rest := by
  induction rest with
  | nil => simp [extractGo, claimExtract, claimTake]
  | cons c r ih =>
    by_cases hdig : isDigitCh c
    · have hc : ¬(c = ',') := by
        intro h; subst h; simp [isDigitCh] at hdig
      simp [extractGo, claimExtract, claimTake, hdig, hc, List.dropWhile,
        extractGo_seen r 0 (by omega)]
    · have hskip : extractGo (c :: r) false 0 = extractGo r false 0 := by
        by_cases hdot : c = '.'
        · subst hdot
          simp [extractGo, show isDigitCh '.' = false from by decide]
        · by_cases hcomma : c = ','
          · subst hcomma
            simp [extractGo, show isDigitCh ',' = false from by decide]
          · simp [extractGo, hdig]
      have hdrop : (c :: r).dropWhile (fun c => !isDigitCh c) =
          r.dropWhile (fun c => !isDigitCh c) := by
        simp [List.dropWhile, hdig]
      rw [hskip, ih]
      simp [claimExtract, hdrop]

theorem findSub_pref (pat : List Char) :
    ∀ (s : List Char) (i j : Nat), findSub pat s i = some j →
      i ≤ j ∧ pat.isPrefixOf (s.drop (j - i)) := by
  intro s
  induction s with
  | nil =>
    intro i j h
    unfold findSub at h
    split at h
    case isTrue hp =>
      cases h
      refine ⟨Nat.le_refl _, ?_⟩
      simpa using hp
    case isFalse => cases h
  | cons c rest ih =>
    intro i j h
    unfold findSub at h
    split at h
    case isTrue hp =>
      cases h
      refine ⟨Nat.le_refl _, ?_⟩
      simpa using hp
    case isFalse =>
      obtain ⟨hle, hpre⟩ := ih (i + 1) j h
      refine ⟨by omega, ?_⟩
      have hidx : j - i = (j - (i + 1)) + 1 := by omega
      rw [hidx, List.drop_succ_cons]
      exact hpre

theorem rsIndexFrom_pref (s : List Char) (start p : Nat)
    (h : rsIndexFrom s start = some p) :
    s.drop p = 'r' :: 's' :: '.' :: s.drop (p + 3) := by
  unfold rsIndexFrom at h
  cases hq : findSub ((("rs.").data)) (s.drop start) 0 with
  | none => rw [hq] at h; cases h
  | some q =>
    rw [hq] at h
    have hp : q + start = p := by simpa using h
    obtain ⟨-, hpre⟩ := findSub_pref _ _ _ _ hq
    rw [Nat.sub_zero, List.drop_drop] at hpre
    obtain ⟨t, ht⟩ := List.isPrefixOf_iff_prefix.mp hpre
    have hdata : (("rs.").data) = ['r', 's', '.'] := by decide
    rw [hdata] at ht
    rw [Nat.add_comm start q] at ht
    subst hp
    have hteq : t = s.drop (q + start + 3) := by
      have h3 : s.drop (q + start + 3) = (s.drop (q + start)).drop 3 := by
        rw [List.drop_drop]
      rw [h3, ← ht]
      simp
    rw [← ht, hteq]
    simp

/-- C5: whenever a balance keyword is found and a subsequent "rs." occurs,
the raw numeric string returned by the balance extractor is produced by the
claim's scan of the text immediately after "rs.": digits are consumed;
once a digit has been seen a comma is skipped and a single dot accepted (a
second dot ends the scan); any other character terminates the collection. -/
theorem claim_C5 (m : TMessage) (j p : Nat)
    (hkw : balanceKeywordEnd AVAILABLE_BALANCE_KEYWORDS
      (joinSpaces (getProcessedMessage m)) = some j)
    (hrs : rsIndexFrom (joinSpaces (getProcessedMessage m)) j = some p) :
    getBalance m .AVAILABLE =
      (if claimExtract ((joinSpaces (getProcessedMessage m)).drop (p + 3)) ≠ [] then
        (padCurrencyValue
          (claimExtract ((joinSpaces (getProcessedMessage m)).drop (p + 3)))).map some
       else some none) := by
  have hs := rsIndexFrom_pref _ _ _ hrs
  have hext : extractBalance (p + 2) (joinSpaces (getProcessedMessage m)) =
      claimExtract ((joinSpaces (getProcessedMessage m)).drop (p + 3)) := by
    unfold extractBalance
    have h2 : (joinSpaces (getProcessedMessage m)).drop (p + 2) =
        '.' :: (joinSpaces (getProcessedMessage m)).drop (p + 3) := by
      have hdd : (joinSpaces (getProcessedMessage m)).drop (p + 2) =
          ((joinSpaces (getProcessedMessage m)).drop p).drop 2 := by
        rw [List.drop_drop]
      rw [hdd, hs]
      rfl
    rw [h2]
    have hskip : extractGo
        ('.' :: (joinSpaces (getProcessedMessage m)).drop (p + 3)) false 0 =
        extractGo ((joinSpaces (getProcessedMessage m)).drop (p + 3)) false 0 := by
      simp [extractGo, show isDigitCh '.' = false from by decide]
    rw [hskip, extractGo_eq_claimExtract]
  unfold getBalance
  simp only [hkw, hrs, hext]

-- ## Character-wise description of normalization step 2 (claim C3)

theorem replaceAllGo_single (c : Char) (t : List Char) :
    ∀ (s : List Char) (n : Nat), s.length ≤ n →
      replaceAllGo [c] t n s = subEach (fun x => if x = c then t else [x]) s := by
  intro s
  induction s with
  | nil =>
    intro n h
    cases n <;> simp [replaceAllGo, subEach]
  | cons a rest ih =>
    intro n h
    match n with
    | 0 => simp at h
    | m + 1 =>
      by_cases hac : a = c
      · subst hac
        have hpre : ([a] : List Char).isPrefixOf (a :: rest) = true := by
          simp [List.isPrefixOf]
        simp only [replaceAllGo, hpre, subEach]
        simp only [List.length_cons] at h
        simp [ih m (by omega)]
      · have hpre : ([c] : List Char).isPrefixOf (a :: rest) = false := by
          simp [List.isPrefixOf]
          intro hh
          exact absurd hh.symm hac
        simp only [replaceAllGo, hpre, subEach]
        simp only [List.length_cons] at h
        simp [ih m (by omega), hac]

theorem replaceAll_single (c : Char) (t s : List Char) :
    replaceAll [c] t s = subEach (fun x => if x = c then t else [x]) s :=
  replaceAllGo_single c t s s.length (Nat.le_refl _)

theorem subEach_append (f : Char → List Char) (a b : List Char) :
    subEach f (a ++ b) = subEach f a ++ subEach f b := by
  induction a with
  | nil => simp [subEach]
  | cons c rest ih => simp [subEach, ih]

theorem subEach_subEach (g f : Char → List Char) (s : List Char) :
    subEach g (subEach f s) = subEach (fun c => subEach g (f c)) s := by
  induction s with
  | nil => simp [subEach]
  | cons c rest ih => simp [subEach, subEach_append, ih]

theorem subEach_congr (f g : Char → List Char) (h : ∀ c, f c = g c) :
    ∀ s, subEach f s = subEach g s := by
  intro s
  induction s with
  | nil => rfl
  | cons c rest ih => simp [subEach, h c, ih]

-- the character-wise transform claimed by the spec for step 2, corrected:
-- `!` and `/` are deleted, the other six are replaced by one space
def step2CharSpec (c : Char) : List Char :=
  if c = '!' || c = '/' then []
  else if c = ':' || c = '=' || c = '\x7b' || c = '\x7d' || c = '\n' || c = '\r' then [' ']
  else [c]

/-- C3 counterexample: normalization step 2 deletes `/` instead of turning
it into a space, so the `/` of "a/c" does not become a separating space:
the two letters are glued into "ac". -/
theorem claim_C3_counterexample :
    pmStep2 (("a/c").data) = (("ac").data) ∧
    pmStep2 (("a/c").data) ≠ (("a c").data) := by decide

/-- C3 amended: step 2 is the character-wise rewrite that deletes `!` and
`/` and replaces each of `:`, `=`, `{`, `}`, `\n`, `\r` by a single
space. -/
theorem claim_C3_amended (s : List Char) : pmStep2 s = subEach step2CharSpec s := by
  unfold pmStep2 subCharClass
  rw [show (("!").data) = ['!'] from rfl, show ((":").data) = [':'] from rfl,
    show (("/").data) = ['/'] from rfl, show (("=").data) = ['='] from rfl,
    show (("\n").data) = ['\n'] from rfl, show (("\r").data) = ['\r'] from rfl]
  rw [replaceAll_single, replaceAll_single, replaceAll_single, replaceAll_single,
    replaceAll_single, replaceAll_single]
  rw [subEach_subEach, subEach_subEach, subEach_subEach, subEach_subEach,
    subEach_subEach, subEach_subEach]
  refine subEach_congr _ _ (fun c => ?_) s
  by_cases h1 : c = '!'
  · subst h1; decide
  · by_cases h2 : c = ':'
    · subst h2; decide
    · by_cases h3 : c = '/'
      · subst h3; decide
      · by_cases h4 : c = '='
        · subst h4; decide
        · by_cases h5 : c = '\x7b'
          · subst h5; decide
          · by_cases h6 : c = '\x7d'
            · subst h6; decide
            · by_cases h7 : c = '\n'
              · subst h7; decide
              · by_cases h8 : c = '\r'
                · subst h8; decide
                · simp [subEach, step2CharSpec, h1, h2, h3, h4, h5, h6, h7, h8]

-- ## Dot-counting lemmas: `pad_currency_value` never raises in the engine

theorem ne_dot_of_digit (c : Char) (h : isDigitCh c = true) : c ≠ '.' := by
  intro hc
  subst hc
  exact absurd h (by decide)

theorem ne_dot_of_pyWs (c : Char) (h : isPyWs c = true) : c ≠ '.' := by
  intro hc
  subst hc
  exact absurd h (by decide)

theorem digitsUTail_count_dot :
    ∀ (n : Nat) (s : List Char), s.length ≤ n →
      (digitsUTail s).count '.' = s.count '.' := by
  intro n
  induction n with
  | zero =>
    intro s h
    have hnil : s = [] := by
      cases s
      · rfl
      · simp at h
    subst hnil
    rfl
  | succ m ih =>
    intro s h
    match s with
    | [] => rfl
    | c :: rest =>
      by_cases hd : isDigitCh c
      · have hstep : digitsUTail (c :: rest) = digitsUTail rest := by
          rw [digitsUTail.eq_def]
          simp [hd]
        rw [hstep, ih rest (by simp at h; omega)]
        simp [List.count_cons, ne_dot_of_digit c hd]
      · by_cases hu : c = '_'
        · subst hu
          match rest with
          | [] =>
            rw [digitsUTail.eq_def]
            simp [hd]
          | d :: rest2 =>
            by_cases hdd : isDigitCh d
            · have hstep : digitsUTail ('_' :: d :: rest2) = digitsUTail rest2 := by
                rw [digitsUTail.eq_def]
                simp [hdd, show isDigitCh '_' = false from by decide]
              rw [hstep, ih rest2 (by simp at h; omega)]
              simp [List.count_cons, ne_dot_of_digit d hdd,
                show ('_' : Char) ≠ '.' from by decide]
            · rw [digitsUTail.eq_def]
              simp [hdd, show isDigitCh '_' = false from by decide]
        · rw [digitsUTail.eq_def]
          simp [hd, hu]

theorem parseFrac_count_dot (s : List Char) : (parseFrac s).count '.' = s.count '.' := by
  unfold parseFrac
  match s with
  | [] => rfl
  | d :: r =>
    by_cases hd : isDigitCh d
    · simp only [hd, if_true]
      rw [digitsUTail_count_dot r.length r (Nat.le_refl _)]
      simp [List.count_cons, ne_dot_of_digit d hd]
    · simp [hd]

theorem count_dropWhile_pyWs (l : List Char) :
    (l.dropWhile isPyWs).count '.' = l.count '.' := by
  induction l with
  | nil => rfl
  | cons c rest ih =>
    by_cases hw : isPyWs c
    · simp only [List.dropWhile, hw]
      rw [ih]
      simp [List.count_cons, ne_dot_of_pyWs c hw]
    · simp [List.dropWhile, hw]

theorem stripPyWs_count_dot (s : List Char) : (stripPyWs s).count '.' = s.count '.' := by
  unfold stripPyWs
  rw [List.count_reverse, count_dropWhile_pyWs, List.count_reverse, count_dropWhile_pyWs]

theorem dropSign_count_dot (s : List Char) : (dropSign s).count '.' = s.count '.' := by
  unfold dropSign
  match s with
  | [] => rfl
  | c :: rest =>
    by_cases hs : c = '+' || c = '-'
    · have hc : c ≠ '.' := by
        rcases Bool.or_eq_true_iff.mp hs with h | h
        · simp at h
          subst h
          decide
        · simp at h
          subst h
          decide
      simp [hs, List.count_cons, hc]
    · simp [hs]

theorem parseMantissa_count_dot (s r : List Char) (h : parseMantissa s = some r) :
    s.count '.' ≤ r.count '.' + 1 := by
  unfold parseMantissa at h
  match s with
  | [] => cases h
  | c :: rest =>
    by_cases hd : isDigitCh c
    · simp only [hd, if_true] at h
      have htail := digitsUTail_count_dot rest.length rest (Nat.le_refl _)
      split at h
      next r2 heq =>
        cases h
        rw [heq] at htail
        rw [parseFrac_count_dot]
        simp [List.count_cons, ne_dot_of_digit c hd] at htail ⊢
        omega
      next heq =>
        cases h
        simp [List.count_cons, ne_dot_of_digit c hd] at htail ⊢
        omega
    · simp only [hd, if_false] at h
      by_cases hdot : c = '.'
      · simp only [hdot, if_true] at h
        match rest with
        | [] => cases h
        | d :: r2 =>
          by_cases hdd : isDigitCh d
          · simp only [hdd, if_true] at h
            cases h
            subst hdot
            have ht2 := digitsUTail_count_dot r2.length r2 (Nat.le_refl _)
            simp [List.count_cons, ne_dot_of_digit d hdd] at ht2 ⊢
            omega
          · simp [hdd] at h
      · simp [hdot] at h

theorem parseExp_count_dot (s r : List Char) (h : parseExp s = some r) :
    s.count '.' = r.count '.' := by
  unfold parseExp at h
  match s with
  | [] =>
    cases h
    rfl
  | c :: rest =>
    by_cases he : c = 'e' || c = 'E'
    · have hce : c ≠ '.' := by
        rcases Bool.or_eq_true_iff.mp he with h1 | h1
        · simp at h1
          subst h1
          decide
        · simp at h1
          subst h1
          decide
      simp only [he, if_true] at h
      have hds := dropSign_count_dot rest
      split at h
      next d r2 heq =>
        split at h
        next hdd =>
          cases h
          have ht := digitsUTail_count_dot r2.length r2 (Nat.le_refl _)
          rw [heq] at hds
          simp [List.count_cons, hce, ne_dot_of_digit d hdd] at hds ⊢
          omega
        next => cases h
      next heq => cases h
    · simp only [he, if_false] at h
      cases h
      rfl

theorem count_dot_zero_of_ciEq (t lit : List Char) (h : ciEqStr t lit = true)
    (hd : ('.' : Char) ∉ lcStr lit) : t.count '.' = 0 := by
  rw [List.count_eq_zero]
  intro hmem
  apply hd
  have h1 : pyLower '.' ∈ lcStr t := List.mem_map_of_mem _ hmem
  have h2 : lcStr t = lcStr lit := eq_of_beq (by simpa [ciEqStr] using h)
  rw [show pyLower '.' = '.' from by decide] at h1
  rw [h2] at h1
  exact h1

theorem pyFloatableCore_count_dot (t : List Char) (h : pyFloatableCore t = true) :
    t.count '.' ≤ 1 := by
  unfold pyFloatableCore at h
  split at h
  next hinf =>
    rcases Bool.or_eq_true_iff.mp hinf with h1 | h1
    · rcases Bool.or_eq_true_iff.mp h1 with h2 | h2
      · rw [count_dot_zero_of_ciEq _ _ h2 (by decide)]
        omega
      · rw [count_dot_zero_of_ciEq _ _ h2 (by decide)]
        omega
    · rw [count_dot_zero_of_ciEq _ _ h1 (by decide)]
      omega
  next =>
    split at h
    next r1 hm =>
      split at h
      next r2 hx =>
        have hr2 : r2 = [] := by
          cases r2
          · rfl
          · simp at h
        subst hr2
        have h1 := parseMantissa_count_dot _ _ hm
        have h2 := parseExp_count_dot _ _ hx
        simp at h2
        omega
      next => cases h
    next => cases h

theorem pyFloatable_count_dot (s : List Char) (h : pyFloatable s = true) :
    s.count '.' ≤ 1 := by
  have hc := pyFloatableCore_count_dot _ h
  rw [dropSign_count_dot, stripPyWs_count_dot] at hc
  exact hc

theorem splitChGo_length (sep : Char) :
    ∀ (s cur : List Char), (splitChGo sep s cur).length = s.count sep + 1 := by
  intro s
  induction s with
  | nil =>
    intro cur
    simp [splitChGo]
  | cons c rest ih =>
    intro cur
    by_cases hc : c = sep
    · subst hc
      simp [splitChGo, ih, List.count_cons]
    · simp [splitChGo, hc, ih, List.count_cons]

theorem padCurrencyValue_isSome (v : List Char) (h : v.count '.' ≤ 1) :
    (padCurrencyValue v).isSome = true := by
  by_cases hv : v = []
  · simp [padCurrencyValue, hv]
  · have hlen : (splitCh '.' v).length = v.count '.' + 1 := splitChGo_length '.' v []
    unfold padCurrencyValue
    rw [if_neg hv]
    rcases hsp : splitCh '.' v with _ | ⟨a, _ | ⟨b, _ | ⟨c, rest3⟩⟩⟩
    · rw [hsp] at hlen
      simp at hlen
    · rfl
    · rfl
    · rw [hsp] at hlen
      simp at hlen
      omega

theorem extractGo_count_dot (rest : List Char) :
    ∀ (saw : Bool) (cnt : Nat), cnt ≤ 1 →
      (extractGo rest saw cnt).count '.' + cnt ≤ 1 := by
  induction rest with
  | nil =>
    intro saw cnt h
    simp [extractGo]
    omega
  | cons c r ih =>
    intro saw cnt h
    by_cases hd : isDigitCh c
    · simp only [extractGo, hd, if_true]
      have hgo := ih true cnt h
      simp [List.count_cons, ne_dot_of_digit c hd]
      omega
    · cases saw with
      | false =>
        simp only [extractGo, hd, if_false, Bool.false_eq_true]
        exact ih false cnt h
      | true =>
        by_cases hdot : c = '.'
        · subst hdot
          by_cases h1 : cnt = 1
          · subst h1
            simp [extractGo, hd]
          · have h0 : cnt = 0 := by omega
            subst h0
            simp only [extractGo, hd, if_false, if_true, h1]
            have hgo := ih true 1 (by omega)
            simp [List.count_cons]
            omega
        · by_cases hcomma : c = ','
          · subst hcomma
            simp only [extractGo, hd]
            simpa using ih true cnt h
          · simp [extractGo, hd, hdot, hcomma]
            omega

theorem count_dot_takeWhile_digits (l : List Char) :
    (l.takeWhile isDigitCh).count '.' = 0 := by
  rw [List.count_eq_zero]
  intro hm
  exact ne_dot_of_digit _ (List.mem_takeWhile_imp hm) rfl

theorem parseAmountAt_count_dot (s r : List Char) (h : parseAmountAt s = some r) :
    r.count '.' ≤ 1 := by
  unfold parseAmountAt at h
  match s with
  | [] => cases h
  | c :: s' =>
    by_cases hd : isDigitCh c
    · simp only [hd, if_true] at h
      split at h
      next r2 heq =>
        split at h
        next d r3 =>
          split at h
          next hdd =>
            cases h
            simp [List.count_append, List.count_cons, count_dot_takeWhile_digits]
          next =>
            cases h
            simp [count_dot_takeWhile_digits]
        next =>
          cases h
          simp [count_dot_takeWhile_digits]
      next =>
        cases h
        simp [count_dot_takeWhile_digits]
    · simp [hd] at h

theorem nsbCase1Try_count_dot (kws : List (List Char)) :
    ∀ (s amt : List Char) (consumed : Nat),
      nsbCase1Try kws s = some (amt, consumed) → amt.count '.' ≤ 1 := by
  induction kws with
  | nil =>
    intro s amt consumed h
    cases h
  | cons kw rest ih =>
    intro s amt consumed h
    unfold nsbCase1Try at h
    simp only [] at h
    split at h
    next =>
      split at h
      next a heq =>
        cases h
        exact parseAmountAt_count_dot _ _ heq
      next => exact ih _ _ _ h
    next => exact ih _ _ _ h

theorem nsbCase2Try_count_dot (kws : List (List Char)) (s amt : List Char)
    (consumed : Nat) (h : nsbCase2Try kws s = some (amt, consumed)) :
    amt.count '.' ≤ 1 := by
  unfold nsbCase2Try at h
  simp only [] at h
  split at h
  next a heq =>
    split at h
    next =>
      cases h
      exact parseAmountAt_count_dot _ _ heq
    next => cases h
  next => cases h

theorem nsbScan_succ (case2 : Bool) (kws : List (List Char)) (n : Nat) (s : List Char) :
    nsbScan case2 kws (n + 1) s =
      (match nsbTry case2 kws s with
       | some (amt, consumed) =>
         if pyIsDigitStr (removeFirstDot amt) then some amt
         else nsbScan case2 kws n (s.drop (max consumed 1))
       | none =>
         match s with
         | [] => none
         | _ :: rest => nsbScan case2 kws n rest) := rfl

theorem nsbScan_count_dot (case2 : Bool) (kws : List (List Char)) :
    ∀ (fuel : Nat) (s b : List Char),
      nsbScan case2 kws fuel s = some b → b.count '.' ≤ 1 := by
  intro fuel
  induction fuel with
  | zero =>
    intro s b h
    cases h
  | succ n ih =>
    intro s b h
    rw [nsbScan_succ] at h
    split at h
    next amt consumed heq =>
      split at h
      next =>
        cases h
        unfold nsbTry at heq
        cases case2 with
        | false => exact nsbCase1Try_count_dot _ _ _ _ (by simpa using heq)
        | true => exact nsbCase2Try_count_dot _ _ _ _ (by simpa using heq)
      next => exact ih _ _ h
    next =>
      split at h
      next => cases h
      next => exact ih _ _ h

theorem findNonStandardBalance_count_dot (kws : List (List Char)) (s b : List Char)
    (h : findNonStandardBalance kws s = some b) : b.count '.' ≤ 1 := by
  unfold findNonStandardBalance at h
  split at h
  next b' heq =>
    cases h
    exact nsbScan_count_dot _ _ _ _ _ heq
  next => exact nsbScan_count_dot _ _ _ _ _ h

theorem extractBalance_count_dot (i : Nat) (s : List Char) :
    (extractBalance i s).count '.' ≤ 1 := by
  unfold extractBalance
  have := extractGo_count_dot (s.drop i) false 0 (by omega)
  omega

theorem pad_map_isSome (b : List Char) (h : b.count '.' ≤ 1) :
    ((padCurrencyValue b).map some).isSome = true := by
  have hp := padCurrencyValue_isSome b h
  cases hpc : padCurrencyValue b with
  | none => rw [hpc] at hp; cases hp
  | some v => rfl

theorem getBalance_isSome (m : TMessage) (k : IBalanceKeyWordsType) :
    (getBalance m k).isSome = true := by
  unfold getBalance
  simp only []
  split
  next =>
    split
    next b hb => exact pad_map_isSome _ (findNonStandardBalance_count_dot _ _ _ hb)
    next => rfl
  next =>
    split
    next => exact pad_map_isSome _ (extractBalance_count_dot _ _)
    next => rfl

theorem getTransactionAmount_isSome (m : TMessage) :
    (getTransactionAmount m).isSome = true := by
  unfold getTransactionAmount
  simp only []
  split
  next => rfl
  next index hidx =>
    split
    next money1 rest2 hdrop =>
      split
      next hfl =>
        exact padCurrencyValue_isSome _ (pyFloatable_count_dot _ hfl)
      next =>
        split
        next money2 rest3 hdrop2 =>
          split
          next =>
            split
            next hfl2 =>
              exact padCurrencyValue_isSome _ (pyFloatable_count_dot _ hfl2)
            next => rfl
          next =>
            split
            next hfl2 =>
              exact padCurrencyValue_isSome _ (pyFloatable_count_dot _ hfl2)
            next => rfl
        next => rfl
    next => rfl

theorem getTransactionInfo_isSome (msg : List Char) :
    (getTransactionInfo msg).isSome = true := by
  unfold getTransactionInfo
  split
  next => rfl
  next hne =>
    simp only []
    obtain ⟨av, hav⟩ := Option.isSome_iff_exists.mp
      (getBalance_isSome (Sum.inr (processMessage msg)) .AVAILABLE)
    rw [hav, Option.some_bind]
    obtain ⟨amt, hamt⟩ := Option.isSome_iff_exists.mp
      (getTransactionAmount_isSome (Sum.inr (processMessage msg)))
    rw [hamt, Option.some_bind]
    split
    next =>
      obtain ⟨o, ho⟩ := Option.isSome_iff_exists.mp
        (getBalance_isSome (Sum.inr (processMessage msg)) .OUTSTANDING)
      rw [ho, Option.some_bind]
      rfl
    next => rfl

/-- C1: the transaction kind is set only when at least two of
{available balance, transaction amount, account number} are non-empty;
with fewer than two it stays unset, and with two or more it is exactly the
classifier's answer, whatever debit/credit verbs the text contains. -/
theorem claim_C1 (msg : List Char) (t : ITransactionInfo)
    (hinfo : getTransactionInfo msg = some t)
    (av : Option (List Char)) (amt : List Char)
    (hav : getBalance (Sum.inr (processMessage msg)) .AVAILABLE = some av)
    (hamt : getTransactionAmount (Sum.inr (processMessage msg)) = some amt) :
    (([av, some amt, (getAccount (Sum.inr (processMessage msg))).number].countP pyTruthy
        < 2 → t.transaction.type = none) ∧
     (2 ≤ [av, some amt, (getAccount (Sum.inr (processMessage msg))).number].countP pyTruthy →
        t.transaction.type = getTransactionType (Sum.inr (processMessage msg)))) := by
  by_cases hm : msg = []
  · subst hm
    have hval : getTransactionInfo ([]) =
        some { account := {}, balance := none, transaction := {} } := by decide
    rw [hval] at hinfo
    obtain rfl := (Option.some_inj.mp hinfo).symm
    constructor
    · intro _
      rfl
    · intro h2
      have hav0 : av = none := by
        have hb : getBalance (Sum.inr (processMessage ([]))) .AVAILABLE = some none := by
          decide
        rw [hb] at hav
        exact (Option.some_inj.mp hav).symm
      have hamt0 : amt = [] := by
        have hb : getTransactionAmount (Sum.inr (processMessage ([]))) = some [] := by
          decide
        rw [hb] at hamt
        exact (Option.some_inj.mp hamt).symm
      subst hav0
      subst hamt0
      have hacc : (getAccount (Sum.inr (processMessage ([])))).number = none := by decide
      rw [hacc] at h2
      simp [pyTruthy] at h2
  · unfold getTransactionInfo at hinfo
    rw [if_neg hm] at hinfo
    simp only [] at hinfo
    rw [hav, Option.some_bind] at hinfo
    try simp only [] at hinfo
    rw [hamt, Option.some_bind] at hinfo
    try simp only [] at hinfo
    cases ho : (if (getAccount (Sum.inr (processMessage msg))).type = some IAccountType.CARD
        then getBalance (Sum.inr (processMessage msg)) .OUTSTANDING else some none) with
    | none =>
      rw [ho, Option.none_bind] at hinfo
      cases hinfo
    | some o =>
      rw [ho, Option.some_bind] at hinfo
      obtain rfl := (Option.some_inj.mp hinfo)
      constructor
      · intro hlt
        show (if 2 ≤ _ then _ else none) = none
        rw [if_neg (by omega)]
      · intro hge
        show (if 2 ≤ _ then _ else none) = _
        rw [if_pos hge]

theorem claim_C1_witness :
    ({ account := {}, balance := some { available := none, outstanding := none },
       transaction := { type := none, amount := some [], referenceNo := none,
                        merchant := none } } : ITransactionInfo).transaction.type = none := by
  have h := claim_C1 (("x").data)
    { account := {}, balance := some { available := none, outstanding := none },
      transaction := { type := none, amount := some [], referenceNo := none,
                       merchant := none } }
    (by decide) none [] (by decide) (by decide)
  exact h.1 (by decide)

/-- C2: `get_transaction_info` returns without raising on every input, and
the empty message yields the all-empty record (no account fields, no
balance, no transaction fields). -/
theorem claim_C2 :
    (∀ msg : List Char, ∃ t, getTransactionInfo msg = some t) ∧
    getTransactionInfo ([]) =
      some { account := {}, balance := none, transaction := {} } := by
  constructor
  · intro msg
    exact Option.isSome_iff_exists.mp (getTransactionInfo_isSome msg)
  · decide

-- ## C4: currency padding

theorem splitChGo_no_sep (sep : Char) :
    ∀ (s cur : List Char), s.count sep = 0 →
      splitChGo sep s cur = [cur.reverse ++ s] := by
  intro s
  induction s with
  | nil =>
    intro cur _
    simp [splitChGo]
  | cons c rest ih =>
    intro cur hc
    have hcs : ¬(c = sep) := by
      intro hcc
      subst hcc
      simp [List.count_cons] at hc
    have hrest : rest.count sep = 0 := by
      simp [List.count_cons, hcs] at hc
      simpa using hc
    simp [splitChGo, hcs, ih (c :: cur) hrest]

-- whether a string ends in a dot followed by exactly two digits
def endsTwoRev : List Char → Bool
  | d1 :: d2 :: '.' :: _ => isDigitCh d1 && isDigitCh d2
  | _ => false

def endsTwoDecimals (s : List Char) : Bool := endsTwoRev s.reverse

/-- C4 counterexample: "100.555" is numeric, but `pad_currency_value`
returns it unchanged, so the result does not end in exactly two digits
after the decimal point. -/
theorem claim_C4_counterexample :
    pyFloatable (("100.555").data) = true ∧
    padCurrencyValue (("100.555").data) = some (("100.555").data) ∧
    endsTwoDecimals (("100.555").data) = false := by decide

/-- C4 amended: `pad_currency_value` appends ".00" to a dot-free numeric
string and right-pads the fractional part with `ljust(2, '0')`; the result
ends in exactly two digits after the dot whenever the fractional part has
at most two digits (all digits), while longer fractional parts are
returned unchanged. -/
theorem claim_C4_amended (n : List Char) (h : pyFloatable n = true) :
    ∃ p, padCurrencyValue n = some p ∧
      ((splitCh '.' n).length = 1 → p = n ++ ((".00").data) ∧ endsTwoDecimals p = true) ∧
      (∀ lhs rhs, splitCh '.' n = [lhs, rhs] →
        p = lhs ++ '.' :: (rhs ++ List.replicate (2 - rhs.length) '0') ∧
        (rhs.length ≤ 2 → rhs.all isDigitCh = true → endsTwoDecimals p = true)) := by
  have hne : n ≠ [] := by
    intro h0
    subst h0
    exact absurd h (by decide)
  have hlen : (splitCh '.' n).length = n.count '.' + 1 := splitChGo_length '.' n []
  have hdots := pyFloatable_count_dot n h
  rcases hsp : splitCh '.' n with _ | ⟨a, _ | ⟨b, _ | ⟨c, rr⟩⟩⟩
  · rw [hsp] at hlen
    simp at hlen
  · have hcnt : n.count '.' = 0 := by
      rw [hsp] at hlen
      simp at hlen
      omega
    have hna : a = n := by
      have hs0 := splitChGo_no_sep '.' n [] hcnt
      rw [show splitCh '.' n = splitChGo '.' n [] from rfl, hs0] at hsp
      simpa using hsp.symm
    subst hna
    refine ⟨a ++ ((".00").data), ?_, ?_, ?_⟩
    · unfold padCurrencyValue
      rw [if_neg hne, hsp]
    · intro _
      refine ⟨rfl, ?_⟩
      unfold endsTwoDecimals
      have hrev : (a ++ ((".00").data)).reverse = '0' :: '0' :: '.' :: a.reverse := by
        rw [show ((".00").data) = ['.', '0', '0'] from rfl]
        simp
      rw [hrev]
      simp [endsTwoRev, show isDigitCh '0' = true from by decide]
    · intro lhs rhs heq
      simp at heq
  · have hcnt : n.count '.' = 1 := by
      rw [hsp] at hlen
      simp at hlen
      omega
    refine ⟨a ++ '.' :: (b ++ List.replicate (2 - b.length) '0'), ?_, ?_, ?_⟩
    · unfold padCurrencyValue
      rw [if_neg hne, hsp]
    · intro h1
      simp at h1
    · intro lhs rhs heq
      have hal : a = lhs ∧ b = rhs := by simpa using heq
      obtain ⟨rfl, rfl⟩ := hal
      refine ⟨rfl, ?_⟩
      intro hlen2 hdig
      unfold endsTwoDecimals
      rcases b with _ | ⟨x, _ | ⟨y, _ | ⟨z, rr2⟩⟩⟩
      · have hrev : (a ++ '.' :: ([] ++ List.replicate 2 '0')).reverse =
            '0' :: '0' :: '.' :: a.reverse := by simp
        rw [show (2 - ([] : List Char).length) = 2 from rfl, hrev]
        simp [endsTwoRev, show isDigitCh '0' = true from by decide]
      · simp at hdig
        have hrev : (a ++ '.' :: ([x] ++ List.replicate 1 '0')).reverse =
            '0' :: x :: '.' :: a.reverse := by simp
        rw [show (2 - [x].length) = 1 from rfl, hrev]
        simp [endsTwoRev, hdig, show isDigitCh '0' = true from by decide]
      · simp at hdig
        have hrev : (a ++ '.' :: ([x, y] ++ List.replicate 0 '0')).reverse =
            y :: x :: '.' :: a.reverse := by simp
        rw [show (2 - [x, y].length) = 0 from rfl, hrev]
        simp [endsTwoRev, hdig.1, hdig.2]
      · simp at hlen2
  · rw [hsp] at hlen
    simp at hlen
    omega

theorem claim_C4_witness : padCurrencyValue (("100.5").data) = some (("100.50").data) := by
  obtain ⟨p, hp, -, hcase⟩ := claim_C4_amended (("100.5").data) (by decide)
  obtain ⟨hpad, -⟩ := hcase (("100").data) (("5").data) (by decide)
  rw [hp, hpad]
  decide

theorem claim_C5_witness :
    getBalance (Sum.inr [(("avl").data), (("bal").data), (("rs.1,234.50").data)])
      .AVAILABLE = some (some (("1234.50").data)) := by
  have h := claim_C5
    (Sum.inr [(("avl").data), (("bal").data), (("rs.1,234.50").data)])
    7 8 (by decide) (by decide)
  rw [h]
  decide

-- ## C6: account heuristics are interleaved positionally

/-- C6 counterexample: with tokens ["ac123", "ac", "456"] the bonded-"ac"
token "ac123" earlier in the sequence wins over the later standalone "ac"
followed by "456", so the returned number is "123", not "456". -/
theorem claim_C6_counterexample :
    getAccount (Sum.inr [(("ac123").data), (("ac").data), (("456").data)]) =
      { type := some IAccountType.ACCOUNT, number := some (("123").data),
        name := none } ∧
    (("123").data) ≠ (("456").data) := by decide

theorem accountScanGo_skip (tail : List (List Char)) :
    ∀ pre : List (List Char),
      (∀ w ∈ pre, containsSub (("ac").data) w = false) →
      accountScanGo (pre ++ tail) = accountScanGo tail := by
  intro pre
  induction pre with
  | nil =>
    intro _
    simp
  | cons w pre' ih =>
    intro hpre
    have hw := hpre w (by simp)
    have hne : ¬(w = (("ac").data)) := by
      intro he
      subst he
      rw [show containsSub (("ac").data) (("ac").data) = true from by decide] at hw
      cases hw
    have hstep : accountScanGo ((w :: pre') ++ tail) = accountScanGo (pre' ++ tail) := by
      show accountScanGo (w :: (pre' ++ tail)) = accountScanGo (pre' ++ tail)
      rw [accountScanGo.eq_def]
      simp [hne, hw]
    rw [hstep]
    exact ih (fun v hv => hpre v (List.mem_cons_of_mem _ hv))

theorem walletStep_of_set (pm : List (List Char)) (acc : IAccountInfo)
    (h : acc.type ≠ none) : walletStep pm acc = acc := by
  unfold walletStep
  rw [if_neg h]

theorem specialStep_of_set (pm : List (List Char)) (acc : IAccountInfo)
    (h : acc.type ≠ none) : specialStep pm acc = acc := by
  unfold specialStep
  rw [if_neg h]

/-- C6 amended: the standalone-"ac" and bonded-"ac" heuristics run in one
positional scan, so a standalone "ac" followed by a numeric token yields
that number only when no earlier token contains the substring "ac"; an
earlier bonded token would win instead. -/
theorem claim_C6_amended (pre post : List (List Char)) (num : List Char)
    (hpre : ∀ w ∈ pre, containsSub (("ac").data) w = false)
    (hnum : pyIntable (trimLeadingAndTrailingChars num) = true) :
    getAccount (Sum.inr (pre ++ (("ac").data) :: num :: post)) =
      truncateNumber { type := some IAccountType.ACCOUNT,
                       number := some (trimLeadingAndTrailingChars num),
                       name := none } := by
  have hbase : accountScanGo ((("ac").data) :: num :: post) =
      some { type := some IAccountType.ACCOUNT,
             number := some (trimLeadingAndTrailingChars num), name := none } := by
    unfold accountScanGo
    simp [hnum]
  have hscan := (accountScanGo_skip ((("ac").data) :: num :: post) pre hpre).trans hbase
  unfold getAccount
  simp only [getProcessedMessage, hscan]
  rw [walletStep_of_set _ _ (by simp), specialStep_of_set _ _ (by simp)]

theorem claim_C6_witness :
    getAccount (Sum.inr [(("pay").data), (("ac").data), (("456").data)]) =
      { type := some IAccountType.ACCOUNT, number := some (("456").data),
        name := none } := by
  have h := claim_C6_amended [(("pay").data)] [] (("456").data)
    (by decide) (by decide)
  simp only [List.cons_append, List.nil_append] at h
  rw [h]
  decide

-- ## C7: UPI keyword selection order

/-- C7 counterexample: in "a ref no 12 upi 34" the keyword "ref no" occurs
first by position (index 2 versus 12), yet the extraction takes the words
after "upi" because "upi" comes first in the keyword table: the reference
number is "34", not "12". -/
theorem claim_C7_counterexample :
    strFind (("a ref no 12 upi 34").data) (("ref no").data) = some 2 ∧
    strFind (("a ref no 12 upi 34").data) (("upi").data) = some 12 ∧
    (extractMerchantInfo (Sum.inr [(("a").data), (("ref").data), (("no").data),
      (("12").data), (("upi").data), (("34").data)])).referenceNo =
      some (("34").data) ∧
    (("34").data) ≠ (("12").data) := by decide

/-- C7 amended: the keyword loop tries the keyword TABLE in order ("upi"
first), taking the first entry whose leftmost occurrence has index > 0;
whenever "upi" occurs at a positive index it is chosen regardless of where
the other keywords occur. -/
theorem claim_C7_amended (s : List Char) (i : Nat)
    (h1 : strFind s (("upi").data) = some i) (h2 : 0 < i) :
    upiKeywordMatch s = some (("upi").data) := by
  have hp : (fun kw => match strFind s kw with
      | some j => decide (0 < j)
      | none => false) (("upi").data) = true := by
    show (match strFind s (("upi").data) with
      | some j => decide (0 < j)
      | none => false) = true
    rw [h1]
    exact decide_eq_true h2
  unfold upiKeywordMatch UPI_KEYWORDS
  exact List.find?_cons_of_pos _ hp

theorem claim_C7_witness :
    upiKeywordMatch (("a ref no 12 upi 34").data) = some (("upi").data) :=
  claim_C7_amended _ 12 (by decide) (by decide)

-- ## C8: classifier ordering

/-- C8: the three verb classes are applied in order debit, misc, credit
with first match winning: a message matching a credit verb together with a
debit or misc verb classifies as "debit", and a message matching none of
the three classes gets no type. -/
theorem claim_C8 (m : TMessage) :
    (((debitSearch (tmsgStr m) || miscSearch (tmsgStr m)) = true →
       creditSearch (tmsgStr m) = true →
       getTransactionType m = some (("debit").data)) ∧
     (debitSearch (tmsgStr m) = false → miscSearch (tmsgStr m) = false →
       creditSearch (tmsgStr m) = false → getTransactionType m = none)) := by
  constructor
  · intro hdm _
    unfold getTransactionType
    rcases Bool.or_eq_true_iff.mp hdm with hd | hm2
    · rw [hd]
      simp
    · by_cases hd : debitSearch (tmsgStr m) = true
      · rw [hd]
        simp
      · simp only [Bool.not_eq_true] at hd
        rw [hd, hm2]
        simp
  · intro h1 h2 h3
    unfold getTransactionType
    rw [h1, h2, h3]
    simp

theorem claim_C8_witness :
    getTransactionType (Sum.inr [(("credited").data), (("spent").data)]) =
      some (("debit").data) :=
  (claim_C8 _).1 (by decide) (by decide)

-- ## C9: normalization is not idempotent on its own joined output

/-- C9 counterexample: "isdebited" normalizes to ["is", "debited"], but
re-normalizing the space-joined output removes the now-exposed "is "
prefix and yields ["debited"]: re-normalization is not the identity. -/
theorem claim_C9_counterexample :
    processMessage (("isdebited").data) = [(("is").data), (("debited").data)] ∧
    processMessage (joinSpaces (processMessage (("isdebited").data))) =
      [(("debited").data)] ∧
    processMessage (joinSpaces (processMessage (("isdebited").data))) ≠
      processMessage (("isdebited").data) := by decide

/-- C9 amended: normalization is deterministic and `get_processed_message`
is a pure passthrough on inputs that are already token sequences; but
re-normalizing the joined output of `process_message` does not always
reproduce the same tokens. -/
theorem claim_C9_amended : ∀ l : List (List Char),
    getProcessedMessage (Sum.inr l) = l := fun _ => rfl

-- ## C10: a trailing card keyword yields a completely empty account

theorem getCardGo_skip (tail : List (List Char)) :
    ∀ front : List (List Char),
      (∀ v ∈ front, ¬(v = (("card").data) ∨ cardCombinedWords.contains v = true)) →
      getCardGo (front ++ tail) = getCardGo tail := by
  intro front
  induction front with
  | nil =>
    intro _
    simp
  | cons v front' ih =>
    intro hfront
    have hv := hfront v (by simp)
    push_neg at hv
    have hv2 : cardCombinedWords.contains v = false := by
      simpa using hv.2
    have hv3 : v ∉ cardCombinedWords := by
      simpa using hv2
    have hstep : getCardGo ((v :: front') ++ tail) = getCardGo (front' ++ tail) := by
      show getCardGo (v :: (front' ++ tail)) = getCardGo (front' ++ tail)
      rw [getCardGo.eq_def]
      simp [hv.1, hv2, hv3]
    rw [hstep]
    exact ih (fun u hu => hfront u (List.mem_cons_of_mem _ hu))

/-- C10: when the literal token "card" or a CARD-type combined word occurs
only as the last token, `get_card` returns a completely empty account
record (no type, no number, no name), and `get_account` then still runs
its wallet and special-account detection on that empty record. -/
theorem claim_C10 (front : List (List Char)) (w : List Char)
    (hw : w = (("card").data) ∨ cardCombinedWords.contains w = true)
    (hfront : ∀ v ∈ front, ¬(v = (("card").data) ∨ cardCombinedWords.contains v = true)) :
    getCard (front ++ [w]) = ({} : IAccountInfo) ∧
    (accountScanGo (front ++ [w]) = none →
      getAccount (Sum.inr (front ++ [w])) =
        truncateNumber (specialStep (front ++ [w])
          (walletStep (front ++ [w]) ({} : IAccountInfo)))) := by
  have hbase : getCardGo [w] = ({} : IAccountInfo) := by
    by_cases hc : w = (("card").data)
    · subst hc
      rfl
    · rcases hw with hw1 | hw2
      · exact absurd hw1 hc
      · unfold getCardGo
        rw [if_neg hc, hw2]
        rfl
  have hcard : getCard (front ++ [w]) = ({} : IAccountInfo) :=
    (getCardGo_skip [w] front hfront).trans hbase
  refine ⟨hcard, ?_⟩
  intro hscan
  unfold getAccount
  simp only [getProcessedMessage, hscan]
  rw [show getCard (front ++ [w]) = ({} : IAccountInfo) from hcard]

theorem claim_C10_witness :
    getCard [(("paytm").data), (("card").data)] = ({} : IAccountInfo) ∧
    getAccount (Sum.inr [(("paytm").data), (("card").data)]) =
      { type := some IAccountType.WALLET, number := none,
        name := some (("paytm").data) } := by
  have h := claim_C10 [(("paytm").data)] (("card").data) (Or.inl rfl) (by decide)
  simp only [List.cons_append, List.nil_append] at h
  refine ⟨h.1, ?_⟩
  rw [h.2 (by decide)]
  decide
